import Mathlib

/-!
Verification of the `jedit` document core.

The text buffer is modelled as a list of bytes (`List Nat`): a Rust
`String` is a UTF-8 byte sequence and every offset the source manipulates
(`line_offsets`, slice bounds, `len()`) is a byte offset.  The byte `10`
is the terminator `\n` and `13` is `\r`.  Scanning bytes for the value 10
agrees with the source's `char_indices` scan for the char `\n`, because a
`0x0A` byte never occurs inside a multi-byte UTF-8 character.
-/

namespace JEdit

/-- A byte of the UTF-8 text buffer. -/
abbrev Byte := Nat

/-- Embedding of `TextDocument` (src/src/document/text_document.rs):
a text buffer together with the derived line-start offsets. -/
structure TextDocument where
  line_offsets : List Nat
  text_buffer : List Byte
deriving DecidableEq

/-- The scan loop of `TextDocument::init_line_offsets`: walking the buffer
from byte position `i`, each byte equal to `\n` (10) at position `j`
records the offset `j + 1` (the offset just after the newline). -/
def newlineOffsets : List Byte → Nat → List Nat
  | [], _ => []
  | c :: rest, i =>
    if c = 10 then (i + 1) :: newlineOffsets rest (i + 1)
    else newlineOffsets rest (i + 1)

/-- `TextDocument::new`: empty buffer, line offsets `vec![0]`. -/
def TextDocument.new : TextDocument :=
  { line_offsets := [0], text_buffer := [] }

/-- `TextDocument::init_line_offsets`: truncates `line_offsets` to its
first element and then pushes one offset per `\n` of the buffer. -/
def TextDocument.init_line_offsets (d : TextDocument) : TextDocument :=
  { d with line_offsets := d.line_offsets.take 1 ++ newlineOffsets d.text_buffer 0 }

/-- `TextDocument::clear`: resets to `line_offsets = vec![0]` and an empty
buffer. -/
def TextDocument.clear (_d : TextDocument) : TextDocument :=
  { line_offsets := [0], text_buffer := [] }

/-- `TextDocument::init`: clears the document, replaces the buffer with the
content handed over by `file_io::load` (modelled as the `content`
argument), and rebuilds the line offsets. -/
def TextDocument.init (d : TextDocument) (content : List Byte) : TextDocument :=
  TextDocument.init_line_offsets { d.clear with text_buffer := content }

/-- The `start_offset` local of `TextDocument::getline`:
`line_offsets[lineno]` (the access is guarded by the caller, so the
`getD` default is never observed). -/
def TextDocument.startOffset (d : TextDocument) (lineno : Nat) : Nat :=
  d.line_offsets.getD lineno 0

/-- The `end_offset` local of `TextDocument::getline`:
`line_offsets[lineno + 1]` when that index exists, else the buffer
length. -/
def TextDocument.endOffset (d : TextDocument) (lineno : Nat) : Nat :=
  if lineno + 1 < d.line_offsets.length then d.line_offsets.getD (lineno + 1) 0
  else d.text_buffer.length

/-- `TextDocument::getline`: bounds test, offset lookup, sanity check,
slice, then strip one trailing `\n` and afterwards one trailing `\r`. -/
def TextDocument.getline (d : TextDocument) (lineno : Nat) : Option (List Byte) :=
  if lineno ≥ d.line_offsets.length then none
  else
    let start_offset := d.startOffset lineno
    let end_offset := d.endOffset lineno
    if start_offset > end_offset ∨ end_offset > d.text_buffer.length then none
    else
      let slice0 := (d.text_buffer.drop start_offset).take (end_offset - start_offset)
      let slice1 := if slice0.getLast? = some 10 then slice0.dropLast else slice0
      let slice2 := if slice1.getLast? = some 13 then slice1.dropLast else slice1
      some slice2

/-- `TextDocument::line_count`. -/
def TextDocument.line_count (d : TextDocument) : Nat :=
  d.line_offsets.length

/-- `TextDocument::len`. -/
def TextDocument.len (d : TextDocument) : Nat :=
  d.text_buffer.length

/-- `TextDocument::get_content`. -/
def TextDocument.get_content (d : TextDocument) : List Byte :=
  d.text_buffer

/-! ### Structure of the newline scan -/

theorem newlineOffsets_succ (text : List Byte) :
    ∀ i, newlineOffsets text (i + 1) = (newlineOffsets text i).map (· + 1) := by
  induction text with
  | nil => intro i; rfl
  | cons c rest ih =>
    intro i
    by_cases hc : c = 10 <;> simp [newlineOffsets, hc, ih (i + 1)]

theorem newlineOffsets_length (text : List Byte) :
    ∀ i, (newlineOffsets text i).length = text.count 10 := by
  induction text with
  | nil => intro i; rfl
  | cons c rest ih =>
    intro i
    by_cases hc : c = 10 <;>
      simp [newlineOffsets, hc, ih (i + 1), List.count_cons]

theorem newlineOffsets_mem (text : List Byte) :
    ∀ i x, x ∈ newlineOffsets text i → i < x ∧ x ≤ i + text.length := by
  induction text with
  | nil => intro i x hx; simp [newlineOffsets] at hx
  | cons c rest ih =>
    intro i x hx
    by_cases hc : c = 10
    · simp [newlineOffsets, hc] at hx
      simp [List.length_cons]
      rcases hx with hx | hx
      · omega
      · have := ih (i + 1) x hx
        omega
    · simp [newlineOffsets, hc] at hx
      simp [List.length_cons]
      have := ih (i + 1) x hx
      omega

theorem chain_lt_of_lt {a b : Nat} {l : List Nat} (hab : a < b)
    (h : List.Chain' (· < ·) (b :: l)) : List.Chain' (· < ·) (a :: l) := by
  cases l with
  | nil => simp
  | cons x xs =>
    rcases List.chain'_cons.mp h with ⟨hbx, hxs⟩
    exact List.chain'_cons.mpr ⟨lt_trans hab hbx, hxs⟩

theorem newlineOffsets_chain (text : List Byte) :
    ∀ i, List.Chain' (· < ·) (i :: newlineOffsets text i) := by
  induction text with
  | nil => intro i; simp [newlineOffsets]
  | cons c rest ih =>
    intro i
    by_cases hc : c = 10
    · simpa [newlineOffsets, hc] using
        List.chain'_cons.mpr ⟨Nat.lt_succ_self i, ih (i + 1)⟩
    · simpa [newlineOffsets, hc] using
        chain_lt_of_lt (Nat.lt_succ_self i) (ih (i + 1))

/-- The index invariant kept by the document: non-empty offsets, first
offset 0, strictly increasing, all offsets within the buffer. -/
def DocInvariant (d : TextDocument) : Prop :=
  d.line_offsets ≠ [] ∧ d.line_offsets.head? = some 0 ∧
    List.Chain' (· < ·) d.line_offsets ∧
    ∀ x ∈ d.line_offsets, x ≤ d.text_buffer.length

theorem docInvariant_new : DocInvariant TextDocument.new :=
  ⟨by simp [TextDocument.new], rfl, List.chain'_singleton 0, by simp [TextDocument.new]⟩

theorem init_line_offsets_spec (d : TextDocument) (content : List Byte) :
    (d.init content).line_offsets = 0 :: newlineOffsets content 0 ∧
      (d.init content).text_buffer = content := by
  constructor <;> rfl

/-- Claim C9 helper: the invariant holds for a freshly rebuilt index. -/
theorem docInvariant_init (d : TextDocument) (content : List Byte) :
    DocInvariant (d.init content) := by
  refine ⟨by simp [TextDocument.init, TextDocument.clear, TextDocument.init_line_offsets],
    by simp [TextDocument.init, TextDocument.clear, TextDocument.init_line_offsets], ?_, ?_⟩
  · have h := newlineOffsets_chain content 0
    simpa [TextDocument.init, TextDocument.clear, TextDocument.init_line_offsets] using h
  · intro x hx
    simp [TextDocument.init, TextDocument.clear, TextDocument.init_line_offsets] at hx ⊢
    rcases hx with hx | hx
    · omega
    · have := newlineOffsets_mem content 0 x hx
      omega

/-! ### Spec-side definitions for the corrected claims -/

/-- Modelled from the spec: counts line-terminator occurrences under the
three-way classification of section 4.1 — `\n`, `\r\n` (one terminator),
and a lone `\r` not followed by `\n` (its own terminator). -/
def specTerminatorCount : List Byte → Nat
  | [] => 0
  | 10 :: rest => specTerminatorCount rest + 1
  | 13 :: 10 :: rest => specTerminatorCount rest + 1
  | 13 :: rest => specTerminatorCount rest + 1
  | _ :: rest => specTerminatorCount rest

/-- Modelled from the spec: the next-line start offsets produced by the
three-way terminator classification, scanning from byte position `i`.
After `\n` and after lone `\r` the next line starts one byte later; a
`\r\n` pair is a single terminator and the next line starts after the
`\n`. -/
def specNewlineStarts : List Byte → Nat → List Nat
  | [], _ => []
  | 10 :: rest, i => (i + 1) :: specNewlineStarts rest (i + 1)
  | 13 :: 10 :: rest, i => (i + 2) :: specNewlineStarts rest (i + 2)
  | 13 :: rest, i => (i + 1) :: specNewlineStarts rest (i + 1)
  | _ :: rest, i => specNewlineStarts rest (i + 1)

/-- Modelled from the spec: the full `line_starts` sequence the spec's
`rebuild(content)` would produce — offset 0 followed by one line-start
entry per terminator occurrence. -/
def specLineStarts (content : List Byte) : List Nat :=
  0 :: specNewlineStarts content 0

/-- Splitting the buffer at each `\n`, keeping the `\n` at the end of the
part it terminates.  The parts are exactly the raw line slices the
line-offset index induces. -/
def splitOnLFKeep : List Byte → List (List Byte)
  | [] => [[]]
  | c :: rest =>
    if c = 10 then [10] :: splitOnLFKeep rest
    else (c :: (splitOnLFKeep rest).headI) :: (splitOnLFKeep rest).tail

/-- Strip one trailing `\n` if present (the first strip of `getline`). -/
def stripLF (l : List Byte) : List Byte :=
  if l.getLast? = some 10 then l.dropLast else l

/-- Strip one trailing `\r` if present (the second strip of `getline`). -/
def stripCR (l : List Byte) : List Byte :=
  if l.getLast? = some 13 then l.dropLast else l

/-- The raw line slice of the rebuilt document: `getline` without the
stripping, expressed over the text alone. -/
def lineSlice (text : List Byte) (i : Nat) : Option (List Byte) :=
  let offs := 0 :: newlineOffsets text 0
  if i < offs.length then
    some ((text.drop (offs.getD i 0)).take
      ((if i + 1 < offs.length then offs.getD (i + 1) 0 else text.length) - offs.getD i 0))
  else none


/-! ### Relating the offset index to splitting at newlines -/

/-- The slice of `text` between consecutive entries of an offset list,
with `text.length` closing the last line: the common shape of the slice
computation of `getline` and of `lineSlice`. -/
def sliceBetween (text : List Byte) (offs : List Nat) (i : Nat) : Option (List Byte) :=
  if i < offs.length then
    some ((text.drop (offs.getD i 0)).take
      ((if i + 1 < offs.length then offs.getD (i + 1) 0 else text.length) - offs.getD i 0))
  else none

theorem lineSlice_eq_sliceBetween (text : List Byte) (i : Nat) :
    lineSlice text i = sliceBetween text (0 :: newlineOffsets text 0) i := rfl

theorem getD_map_add_one (l : List Nat) (j : Nat) (h : j < l.length) :
    (l.map (· + 1)).getD j 0 = l.getD j 0 + 1 := by
  rw [List.getD_eq_getElem _ _ (by simpa using h), List.getD_eq_getElem _ _ h]
  simp

theorem sliceBetween_cons_succ (text : List Byte) (a : Nat) (offs : List Nat) (j : Nat) :
    sliceBetween text (a :: offs) (j + 1) = sliceBetween text offs j := by
  unfold sliceBetween
  simp only [List.length_cons, Nat.add_lt_add_iff_right, List.getD_cons_succ]

theorem sliceBetween_shift (c : Byte) (text : List Byte) (offs : List Nat) (i : Nat) :
    sliceBetween (c :: text) (offs.map (· + 1)) i = sliceBetween text offs i := by
  unfold sliceBetween
  rw [List.length_map]
  by_cases h : i < offs.length
  · rw [if_pos h, if_pos h, getD_map_add_one _ _ h]
    by_cases h2 : i + 1 < offs.length
    · rw [if_pos h2, if_pos h2, getD_map_add_one _ _ h2]
      simp [Nat.add_sub_add_right]
    · rw [if_neg h2, if_neg h2]
      simp [Nat.add_sub_add_right]
  · rw [if_neg h, if_neg h]

theorem newlineOffsets_cons_lf (rest : List Byte) :
    newlineOffsets (10 :: rest) 0 = 1 :: (newlineOffsets rest 0).map (· + 1) := by
  simpa [newlineOffsets] using newlineOffsets_succ rest 0

theorem newlineOffsets_cons_ne (c : Byte) (rest : List Byte) (hc : c ≠ 10) :
    newlineOffsets (c :: rest) 0 = (newlineOffsets rest 0).map (· + 1) := by
  simpa [newlineOffsets, hc] using newlineOffsets_succ rest 0

theorem splitOnLFKeep_ne_nil (text : List Byte) : splitOnLFKeep text ≠ [] := by
  cases text with
  | nil => simp [splitOnLFKeep]
  | cons c rest => by_cases hc : c = 10 <;> simp [splitOnLFKeep, hc]

theorem headI_eq_of_getElem_zero {α : Type} [Inhabited α] {l : List α} {x : α}
    (h : l[0]? = some x) : l.headI = x := by
  cases l <;> simp_all

theorem lineSlice_zero (text : List Byte) :
    lineSlice text 0 = some (text.take ((newlineOffsets text 0).headD text.length)) := by
  unfold lineSlice
  cases hN : newlineOffsets text 0 with
  | nil => simp
  | cons a NR => simp

/-- The raw line slices induced by the rebuilt offset index are exactly
the parts of the buffer split at each `\n` with the `\n` kept. -/
theorem lineSlice_eq_split (text : List Byte) :
    ∀ i, lineSlice text i = (splitOnLFKeep text)[i]? := by
  induction text with
  | nil =>
    intro i
    cases i with
    | zero => rfl
    | succ j => simp [lineSlice, newlineOffsets, splitOnLFKeep]
  | cons c rest ih =>
    intro i
    by_cases hc : c = 10
    · subst hc
      cases i with
      | zero =>
        rw [lineSlice_zero, newlineOffsets_cons_lf]
        simp [splitOnLFKeep]
      | succ j =>
        have h1 : lineSlice (10 :: rest) (j + 1) = lineSlice rest j := by
          rw [lineSlice_eq_sliceBetween, lineSlice_eq_sliceBetween, newlineOffsets_cons_lf]
          calc sliceBetween (10 :: rest)
                (0 :: 1 :: (newlineOffsets rest 0).map (· + 1)) (j + 1)
              = sliceBetween (10 :: rest)
                (1 :: (newlineOffsets rest 0).map (· + 1)) j := by
                rw [sliceBetween_cons_succ]
            _ = sliceBetween (10 :: rest)
                ((0 :: newlineOffsets rest 0).map (· + 1)) j := by
                simp
            _ = sliceBetween rest (0 :: newlineOffsets rest 0) j := by
                rw [sliceBetween_shift]
        rw [h1, ih j]
        simp [splitOnLFKeep]
    · cases i with
      | zero =>
        rw [lineSlice_zero, newlineOffsets_cons_ne c rest hc]
        have h0 : (splitOnLFKeep rest).headI
            = rest.take ((newlineOffsets rest 0).headD rest.length) := by
          apply headI_eq_of_getElem_zero
          rw [← ih 0, lineSlice_zero]
        have hmap : ((newlineOffsets rest 0).map (· + 1)).headD (c :: rest).length
            = (newlineOffsets rest 0).headD rest.length + 1 := by
          cases newlineOffsets rest 0 <;> simp
        rw [hmap]
        simp [splitOnLFKeep, hc, h0]
      | succ j =>
        have h1 : lineSlice (c :: rest) (j + 1) = lineSlice rest (j + 1) := by
          rw [lineSlice_eq_sliceBetween, lineSlice_eq_sliceBetween,
            newlineOffsets_cons_ne c rest hc]
          calc sliceBetween (c :: rest)
                (0 :: (newlineOffsets rest 0).map (· + 1)) (j + 1)
              = sliceBetween (c :: rest) ((newlineOffsets rest 0).map (· + 1)) j := by
                rw [sliceBetween_cons_succ]
            _ = sliceBetween rest (newlineOffsets rest 0) j := by
                rw [sliceBetween_shift]
            _ = sliceBetween rest (0 :: newlineOffsets rest 0) (j + 1) := by
                rw [sliceBetween_cons_succ]
        rw [h1, ih (j + 1)]
        have hne := splitOnLFKeep_ne_nil rest
        cases hp : splitOnLFKeep rest with
        | nil => exact absurd hp hne
        | cons p ps => simp [splitOnLFKeep, hc, hp]

/-! ### `getline` under the index invariant -/

theorem getD_le_of_invariant {d : TextDocument} (hinv : DocInvariant d) {i : Nat}
    (h : i < d.line_offsets.length) : d.line_offsets.getD i 0 ≤ d.text_buffer.length := by
  rcases hinv with ⟨-, -, -, hle⟩
  rw [List.getD_eq_getElem _ _ h]
  exact hle _ (List.getElem_mem h)

theorem chain_getD_lt {l : List Nat} (hc : List.Chain' (· < ·) l) {i : Nat}
    (h : i + 1 < l.length) : l.getD i 0 < l.getD (i + 1) 0 := by
  rw [List.getD_eq_getElem _ _ (by omega), List.getD_eq_getElem _ _ h]
  have := List.chain'_iff_get.mp hc i (by omega)
  simpa using this

theorem endOffset_le_len {d : TextDocument} (hinv : DocInvariant d) (lineno : Nat) :
    d.endOffset lineno ≤ d.text_buffer.length := by
  unfold TextDocument.endOffset
  rcases Nat.lt_or_ge (lineno + 1) d.line_offsets.length with h2 | h2
  · rw [if_pos h2]
    exact getD_le_of_invariant hinv h2
  · rw [if_neg (by omega)]

theorem startOffset_le_endOffset {d : TextDocument} (hinv : DocInvariant d) {lineno : Nat}
    (h : lineno < d.line_offsets.length) :
    d.startOffset lineno ≤ d.endOffset lineno := by
  unfold TextDocument.startOffset TextDocument.endOffset
  rcases Nat.lt_or_ge (lineno + 1) d.line_offsets.length with h2 | h2
  · rw [if_pos h2]
    exact le_of_lt (chain_getD_lt hinv.2.2.1 h2)
  · rw [if_neg (by omega)]
    exact getD_le_of_invariant hinv h

/-- Under the index invariant the sanity check of `getline` never fires:
every in-range line number yields the stripped slice between its
offsets. -/
theorem getline_of_lt {d : TextDocument} (hinv : DocInvariant d) {lineno : Nat}
    (h : lineno < d.line_offsets.length) :
    d.getline lineno = some (stripCR (stripLF
      ((d.text_buffer.drop (d.startOffset lineno)).take
        (d.endOffset lineno - d.startOffset lineno)))) := by
  have h1 : ¬ lineno ≥ d.line_offsets.length := by omega
  have h2 : ¬ (d.startOffset lineno > d.endOffset lineno ∨
      d.endOffset lineno > d.text_buffer.length) := by
    push_neg
    exact ⟨startOffset_le_endOffset hinv h, endOffset_le_len hinv lineno⟩
  simp only [TextDocument.getline, if_neg h1, if_neg h2]
  rfl

theorem getline_none_of_ge {d : TextDocument} {lineno : Nat}
    (h : d.line_offsets.length ≤ lineno) : d.getline lineno = none := by
  unfold TextDocument.getline
  rw [if_pos h]

theorem getline_init_eq_lineSlice (text : List Byte) (i : Nat) :
    (TextDocument.new.init text).getline i
      = (lineSlice text i).map (fun l => stripCR (stripLF l)) := by
  have hinv := docInvariant_init TextDocument.new text
  by_cases h : i < (TextDocument.new.init text).line_offsets.length
  · rw [getline_of_lt hinv h, lineSlice_eq_sliceBetween]
    unfold sliceBetween
    rw [if_pos (show i < (0 :: newlineOffsets text 0).length from h)]
    rfl
  · rw [getline_none_of_ge (by omega), lineSlice_eq_sliceBetween]
    unfold sliceBetween
    rw [if_neg (show ¬ i < (0 :: newlineOffsets text 0).length from h)]
    rfl

theorem newlineOffsets_eq_filterMap (text : List Byte) :
    ∀ i0, newlineOffsets text i0
      = (List.range text.length).filterMap
          (fun j => if text.getD j 0 = 10 then some (i0 + j + 1) else none) := by
  induction text with
  | nil => intro i0; simp [newlineOffsets]
  | cons c rest ih =>
    intro i0
    rw [List.length_cons, List.range_succ_eq_map, List.filterMap_cons, List.filterMap_map]
    have hfun : ∀ j ∈ List.range rest.length,
        ((fun j => if (c :: rest).getD j 0 = 10 then some (i0 + j + 1) else none) ∘
          Nat.succ) j
          = (fun j => if rest.getD j 0 = 10 then some ((i0 + 1) + j + 1) else none) j := by
      intro j _
      have harith : i0 + (j + 1) + 1 = (i0 + 1) + j + 1 := by omega
      simp [Function.comp, List.getD_cons_succ, harith]
    rw [List.filterMap_congr hfun, ← ih (i0 + 1)]
    by_cases hc : c = 10 <;> simp [newlineOffsets, hc]

/-! ### Claim theorems for the document core -/

/-- Claim C1, counterexample: the rebuild after loading does not apply the
spec's three-way terminator classification.  On the buffer `"a\rb"` the
three-way classification yields the line starts `[0, 2]` (the lone `\r`
is its own terminator) but the code records only `[0]`, because the scan
recognizes `\n` alone. -/
theorem rebuild_not_three_way_on_lone_cr :
    (TextDocument.new.init [97, 13, 98]).line_offsets ≠ specLineStarts [97, 13, 98] := by
  decide

/-- Claim C1, amended: the rebuild records one new line start after each
`\n` and nothing else: the entries after the initial 0 are exactly
`j + 1` for the positions `j` holding `\n`, in increasing order.  Hence a
`\r\n` pair still yields exactly one entry (contributed by its `\n`),
but a lone `\r` not followed by `\n` is not treated as a terminator and
yields no entry. -/
theorem rebuild_line_starts_after_each_lf (text : List Byte) :
    (TextDocument.new.init text).line_offsets
      = 0 :: (List.range text.length).filterMap
          (fun j => if text.getD j 0 = 10 then some (j + 1) else none) := by
  rw [(init_line_offsets_spec TextDocument.new text).1, newlineOffsets_eq_filterMap text 0]
  congr 1
  apply List.filterMap_congr
  intro j _
  by_cases hj : text.getD j 0 = 10 <;> simp [hj]

/-- Claim C5, counterexample: on `"a\rb"` the spec's three-way terminator
classification counts one terminator, so the claim demands
`line_count = 2`; the code rebuilds only on `\n` and yields
`line_count = 1`. -/
theorem line_count_not_terminator_count_on_lone_cr :
    (TextDocument.new.init [97, 13, 98]).line_count
      ≠ 1 + specTerminatorCount [97, 13, 98] := by
  decide

/-- Claim C5, amended: after the rebuild, `line_count()` equals 1 plus the
number of `\n` occurrences in the text (a `\r\n` pair counts once, via
its `\n`; a lone `\r` counts zero). -/
theorem line_count_eq_one_add_lf_count (text : List Byte) :
    (TextDocument.new.init text).line_count = 1 + text.count 10 := by
  unfold TextDocument.line_count
  rw [(init_line_offsets_spec TextDocument.new text).1]
  rw [List.length_cons, newlineOffsets_length text 0]
  omega

/-- Claim C6: for every loaded document and every line number, `getline`
returns the line's raw slice (the buffer split at each `\n`, terminator
kept) with the trailing terminator stripped by removing a trailing `\n`
first if present and then a trailing `\r` if present; in particular
loading `"a\r\nb"` gives two lines, `"a"` and `"b"`. -/
theorem getline_eq_split_strip :
    (∀ text i, (TextDocument.new.init text).getline i
      = ((splitOnLFKeep text)[i]?).map (fun l => stripCR (stripLF l)))
    ∧ (TextDocument.new.init [97, 13, 10, 98]).line_count = 2
    ∧ (TextDocument.new.init [97, 13, 10, 98]).getline 0 = some [97]
    ∧ (TextDocument.new.init [97, 13, 10, 98]).getline 1 = some [98] := by
  refine ⟨fun text i => ?_, by decide, by decide, by decide⟩
  rw [getline_init_eq_lineSlice, lineSlice_eq_split]

/-- Claim C7: under the index invariant (which every reachable document
satisfies), `getline` returns `none` exactly when the line number is at
least `line_count()`, and `some` line text for every smaller line
number. -/
theorem getline_none_iff_out_of_range (d : TextDocument) (lineno : Nat)
    (hinv : DocInvariant d) :
    d.getline lineno = none ↔ d.line_count ≤ lineno := by
  unfold TextDocument.line_count
  constructor
  · intro hnone
    by_contra hlt
    push_neg at hlt
    rw [getline_of_lt hinv hlt] at hnone
    simp at hnone
  · exact getline_none_of_ge

/-- Witness for C7 at a concrete document: the fresh document has one
line, and `getline 1` is `none`. -/
theorem getline_none_iff_out_of_range_witness :
    TextDocument.new.getline 1 = none :=
  (getline_none_iff_out_of_range TextDocument.new 1 docInvariant_new).mpr (by decide)

/-- Claim C8: `clear()` resets every document to empty content
(`len = 0`, empty buffer) and the single-line index `[0]`, so
`line_count()` is 1 afterwards. -/
theorem clear_resets_document (d : TextDocument) :
    d.clear.len = 0 ∧ d.clear.get_content = [] ∧ d.clear.line_offsets = [0]
      ∧ d.clear.line_count = 1 :=
  ⟨rfl, rfl, rfl, rfl⟩

/-- Claim C9: every operation that builds the index — `new`, `clear`, and
the rebuild after a load — establishes the invariant: the offset list is
non-empty, starts with 0, is strictly increasing, and every offset is at
most the buffer length. -/
theorem line_offsets_invariant :
    DocInvariant TextDocument.new ∧ (∀ d : TextDocument, DocInvariant d.clear)
      ∧ ∀ (d : TextDocument) (content : List Byte), DocInvariant (d.init content) :=
  ⟨docInvariant_new, fun _ => docInvariant_new, docInvariant_init⟩

/-- Claim C10: a fresh (or cleared) document behaves as one empty line:
`line_count()` is 1 and `getline 0` returns `some ""`. -/
theorem empty_document_one_empty_line :
    TextDocument.new.line_count = 1 ∧ TextDocument.new.getline 0 = some []
      ∧ ∀ d : TextDocument, d.clear.line_count = 1 ∧ d.clear.getline 0 = some [] :=
  ⟨rfl, by decide, fun _ => ⟨rfl, show TextDocument.new.getline 0 = some [] by decide⟩⟩

/-! ### The command layer, modelled from the spec

The command sources of the repository (src/src/command/commands.rs and
src/src/command/command_manager.rs) are unimplemented stubs: the
`execute` bodies are `todo!()`, there is no `invert`, no captured-state
field, no splice API, and no undo/redo stacks.  The definitions below
therefore follow sections 3, 4.2-4.4 and 7 of the specification. -/

/-- Modelled from the spec: the recoverable `EditError` kinds of
section 7; absent from src (the stubs declare no error type). -/
inductive EditError where
  | OutOfRange
  | InvalidBoundary
  | NotExecuted
  | NothingToUndo
  | NothingToRedo
deriving DecidableEq

/-- Modelled from the spec: the `TextBuffer` of section 3 — the content
bytes plus the `line_starts` index; absent from src. -/
structure TextBuffer where
  content : List Byte
  line_starts : List Nat
deriving DecidableEq

/-- Modelled from the spec: `splice_insert(pos, text)` of section 4.2 —
`OutOfRange` when `pos > content.len()`, otherwise insert `text` at byte
offset `pos` and rebuild the index from scratch (the spec's reference
rebuild policy, with the spec's three-way terminator classification). -/
def TextBuffer.splice_insert (b : TextBuffer) (pos : Nat) (text : List Byte) :
    Except EditError TextBuffer :=
  if pos > b.content.length then .error .OutOfRange
  else
    let c := b.content.take pos ++ text ++ b.content.drop pos
    .ok { content := c, line_starts := specLineStarts c }

/-- Modelled from the spec: `splice_delete(pos, len)` of section 4.2 —
`OutOfRange` when `pos + len > content.len()`, otherwise remove `len`
bytes starting at `pos`, return the removed bytes, and rebuild the
index. -/
def TextBuffer.splice_delete (b : TextBuffer) (pos len : Nat) :
    Except EditError (List Byte × TextBuffer) :=
  if pos + len > b.content.length then .error .OutOfRange
  else
    let removed := (b.content.drop pos).take len
    let c := b.content.take pos ++ b.content.drop (pos + len)
    .ok (removed, { content := c, line_starts := specLineStarts c })

/-- Modelled from the spec: the `Command` variants of sections 3 and 4.3
as a tagged variant type (the representation section 9 recommends); the
`Delete` variant carries its captured-state field, `none` until
`execute` stores the removed bytes there. -/
inductive Command where
  | insert (pos : Nat) (text : List Byte)
  | delete (pos : Nat) (len : Nat) (captured : Option (List Byte))
deriving DecidableEq

/-- Modelled from the spec: `Command::execute` of section 4.3.  `Insert`
calls `splice_insert`; `Delete` calls `splice_delete` and stores the
returned bytes in its captured-state field. -/
def Command.execute : Command → TextBuffer → Except EditError (Command × TextBuffer)
  | .insert pos text, b =>
    match b.splice_insert pos text with
    | .error e => .error e
    | .ok b2 => .ok (.insert pos text, b2)
  | .delete pos len _, b =>
    match b.splice_delete pos len with
    | .error e => .error e
    | .ok (removed, b2) => .ok (.delete pos len (some removed), b2)

/-- Modelled from the spec: `Command::invert` of section 4.3.  `Insert`
inverts to `splice_delete(pos, text.len())`; `Delete` inverts to
`splice_insert(pos, captured_text)` and is a `NotExecuted` failure when
nothing was captured. -/
def Command.invert : Command → TextBuffer → Except EditError TextBuffer
  | .insert pos text, b =>
    match b.splice_delete pos text.length with
    | .error e => .error e
    | .ok (_, b2) => .ok b2
  | .delete _ _ none, _ => .error .NotExecuted
  | .delete pos _ (some captured), b => b.splice_insert pos captured

/-- Modelled from the spec: the `CommandManager` of section 4.4 with its
undo and redo stacks; the head of each list is the most recent entry. -/
structure CommandManager where
  undo_stack : List Command
  redo_stack : List Command
deriving DecidableEq

/-- Modelled from the spec: `apply(command, buffer)` of section 4.4 — run
`execute`; on success push the executed command onto the undo stack and
clear the redo stack; on failure leave manager and buffer untouched and
surface the error. -/
def CommandManager.apply (m : CommandManager) (cmd : Command) (b : TextBuffer) :
    Except EditError Unit × CommandManager × TextBuffer :=
  match cmd.execute b with
  | .error e => (.error e, m, b)
  | .ok (c2, b2) => (.ok (), { undo_stack := c2 :: m.undo_stack, redo_stack := [] }, b2)

/-- Modelled from the spec: `undo(buffer)` of section 4.4 —
`NothingToUndo` on an empty undo stack; otherwise pop the most recent
command and `invert` it, on success pushing it onto the redo stack (on
failure it is dropped). -/
def CommandManager.undo (m : CommandManager) (b : TextBuffer) :
    Except EditError Unit × CommandManager × TextBuffer :=
  match m.undo_stack with
  | [] => (.error .NothingToUndo, m, b)
  | c :: rest =>
    match c.invert b with
    | .error e => (.error e, { undo_stack := rest, redo_stack := m.redo_stack }, b)
    | .ok b2 => (.ok (), { undo_stack := rest, redo_stack := c :: m.redo_stack }, b2)

/-- Modelled from the spec: `redo(buffer)` of section 4.4 —
`NothingToRedo` on an empty redo stack; otherwise pop the most recent
undone command and `execute` it again, on success pushing it onto the
undo stack. -/
def CommandManager.redo (m : CommandManager) (b : TextBuffer) :
    Except EditError Unit × CommandManager × TextBuffer :=
  match m.redo_stack with
  | [] => (.error .NothingToRedo, m, b)
  | c :: rest =>
    match c.execute b with
    | .error e => (.error e, { undo_stack := m.undo_stack, redo_stack := rest }, b)
    | .ok (c2, b2) => (.ok (), { undo_stack := c2 :: m.undo_stack, redo_stack := rest }, b2)

/-- Claim C2 (spec-modelled): for every buffer state and every valid
`pos`, `len`, executing `Delete{pos, len}` captures exactly the removed
bytes inside the command, and inverting that same command afterwards
restores the buffer content byte-for-byte. -/
theorem splice_insert_ok (b : TextBuffer) (pos : Nat) (text : List Byte)
    (h : pos ≤ b.content.length) :
    b.splice_insert pos text
      = .ok (TextBuffer.mk (b.content.take pos ++ text ++ b.content.drop pos)
          (specLineStarts (b.content.take pos ++ text ++ b.content.drop pos))) := by
  unfold TextBuffer.splice_insert
  rw [if_neg (by omega)]

theorem splice_delete_ok (b : TextBuffer) (pos len : Nat)
    (h : pos + len ≤ b.content.length) :
    b.splice_delete pos len
      = .ok ((b.content.drop pos).take len,
          TextBuffer.mk (b.content.take pos ++ b.content.drop (pos + len))
            (specLineStarts (b.content.take pos ++ b.content.drop (pos + len)))) := by
  unfold TextBuffer.splice_delete
  rw [if_neg (by omega)]

theorem delete_capture_invert_roundtrip (b : TextBuffer) (pos len : Nat)
    (h : pos + len ≤ b.content.length) :
    ∃ b2, (Command.delete pos len none).execute b
        = .ok (Command.delete pos len (some ((b.content.drop pos).take len)), b2)
      ∧ ∃ b3, (Command.delete pos len (some ((b.content.drop pos).take len))).invert b2
          = .ok b3 ∧ b3.content = b.content := by
  have hlenpos : (b.content.take pos).length = pos := by
    simp [List.length_take]
    omega
  refine ⟨TextBuffer.mk (b.content.take pos ++ b.content.drop (pos + len))
    (specLineStarts (b.content.take pos ++ b.content.drop (pos + len))), ?_, ?_⟩
  · have hdel := splice_delete_ok b pos len h
    simp [Command.execute, hdel]
  · have hpos2 : pos ≤ (b.content.take pos ++ b.content.drop (pos + len)).length := by
      simp [List.length_append, hlenpos]
    have hc : (b.content.take pos ++ b.content.drop (pos + len)).take pos ++
        (b.content.drop pos).take len ++
        (b.content.take pos ++ b.content.drop (pos + len)).drop pos = b.content := by
      rw [List.take_left' hlenpos, List.drop_left' hlenpos, List.append_assoc]
      conv_rhs => rw [← List.take_append_drop pos b.content]
      congr 1
      rw [← List.drop_drop]
      exact List.take_append_drop len (b.content.drop pos)
    have hins : (TextBuffer.mk (b.content.take pos ++ b.content.drop (pos + len))
          (specLineStarts (b.content.take pos ++ b.content.drop (pos + len)))).splice_insert
            pos ((b.content.drop pos).take len)
        = .ok (TextBuffer.mk
            ((b.content.take pos ++ b.content.drop (pos + len)).take pos ++
              (b.content.drop pos).take len ++
              (b.content.take pos ++ b.content.drop (pos + len)).drop pos)
            (specLineStarts
              ((b.content.take pos ++ b.content.drop (pos + len)).take pos ++
                (b.content.drop pos).take len ++
                (b.content.take pos ++ b.content.drop (pos + len)).drop pos))) :=
      splice_insert_ok _ _ _ hpos2
    refine ⟨TextBuffer.mk b.content (specLineStarts b.content), ?_, rfl⟩
    show (TextBuffer.mk (b.content.take pos ++ b.content.drop (pos + len))
        (specLineStarts (b.content.take pos ++ b.content.drop (pos + len)))).splice_insert
          pos ((b.content.drop pos).take len)
      = .ok (TextBuffer.mk b.content (specLineStarts b.content))
    rw [hins, hc]

/-- Witness for C2 on the 3-byte buffer `"hi!"` with `pos = 1`,
`len = 1`. -/
theorem delete_capture_invert_roundtrip_witness :
    1 + 1 ≤ (TextBuffer.mk [104, 105, 33] [0]).content.length ∧
      ∃ b2, (Command.delete 1 1 none).execute (TextBuffer.mk [104, 105, 33] [0])
          = .ok (Command.delete 1 1
              (some (((TextBuffer.mk [104, 105, 33] [0]).content.drop 1).take 1)), b2)
        ∧ ∃ b3, (Command.delete 1 1
              (some (((TextBuffer.mk [104, 105, 33] [0]).content.drop 1).take 1))).invert b2
            = .ok b3 ∧ b3.content = (TextBuffer.mk [104, 105, 33] [0]).content :=
  ⟨by decide, delete_capture_invert_roundtrip (TextBuffer.mk [104, 105, 33] [0]) 1 1 (by decide)⟩

/-- Claim C3 (spec-modelled): executing a fresh command through the
manager clears the redo stack, so after `apply(A)`, `undo()`, `apply(B)`
a subsequent `redo()` fails with `NothingToRedo`. -/
theorem redo_fails_after_fresh_apply
    (m : CommandManager) (b : TextBuffer) (A B : Command)
    (m1 : CommandManager) (b1 : TextBuffer) (r : Except EditError Unit)
    (m2 : CommandManager) (b2 : TextBuffer) (m3 : CommandManager) (b3 : TextBuffer)
    (hA : m.apply A b = (.ok (), m1, b1))
    (hU : m1.undo b1 = (r, m2, b2))
    (hB : m2.apply B b2 = (.ok (), m3, b3)) :
    (m3.redo b3).1 = .error .NothingToRedo := by
  clear hA hU
  unfold CommandManager.apply at hB
  cases hB2 : B.execute b2 with
  | error e =>
    rw [hB2] at hB
    exact absurd hB (by simp)
  | ok p =>
    obtain ⟨c2, b4⟩ := p
    rw [hB2] at hB
    simp [Prod.mk.injEq] at hB
    obtain ⟨hm3, -⟩ := hB
    rw [← hm3]
    rfl

/-- Witness for C3: a concrete run — delete the single byte of `"a"`,
undo it, insert `"b"`, then `redo()` reports `NothingToRedo`. -/
theorem redo_fails_after_fresh_apply_witness :
    (CommandManager.redo ⟨[Command.insert 0 [98]], []⟩ ⟨[98, 97], [0]⟩).1
      = .error .NothingToRedo :=
  redo_fails_after_fresh_apply ⟨[], []⟩ ⟨[97], [0]⟩ (.delete 0 1 none) (.insert 0 [98])
    ⟨[.delete 0 1 (some [97])], []⟩ ⟨[], [0]⟩ (.ok ()) ⟨[], [.delete 0 1 (some [97])]⟩
    ⟨[97], [0]⟩ ⟨[Command.insert 0 [98]], []⟩ ⟨[98, 97], [0]⟩ rfl rfl rfl

/-- Claim C4 (spec-modelled): applying a `Delete` whose range exceeds the
buffer fails with `OutOfRange`, leaves the buffer (content and index)
untouched, and pushes nothing onto any history stack. -/
theorem apply_delete_out_of_range_atomic (m : CommandManager) (b : TextBuffer)
    (pos len : Nat) (h : b.content.length < pos + len) :
    m.apply (Command.delete pos len none) b = (.error .OutOfRange, m, b) := by
  simp [CommandManager.apply, Command.execute, TextBuffer.splice_delete, h]

/-- Witness for C4: `Delete{pos: 1, len: 10}` on the 5-byte buffer
`"hello"`. -/
theorem apply_delete_out_of_range_atomic_witness :
    (TextBuffer.mk [104, 101, 108, 108, 111] [0]).content.length < 1 + 10 ∧
      CommandManager.apply ⟨[], []⟩ (Command.delete 1 10 none)
          (TextBuffer.mk [104, 101, 108, 108, 111] [0])
        = (.error .OutOfRange, ⟨[], []⟩, TextBuffer.mk [104, 101, 108, 108, 111] [0]) :=
  ⟨by decide, apply_delete_out_of_range_atomic ⟨[], []⟩
    (TextBuffer.mk [104, 101, 108, 108, 111] [0]) 1 10 (by decide)⟩
